import Mathlib

/-!
Verification of the GOmd infrastructure utilities: the in-memory TTL/LRU
cache and content hash (cache utilities module), the fixed-window rate
limiter (`src/lib/rate-limiter.ts`), the quality scorer (utils module),
and the memory-guarded file processing pipeline
(`src/lib/memory-optimizer.ts`).  All definitions are shallow embeddings of
the TypeScript source: JavaScript `Map`s become association lists in
insertion order, `Date.now()` becomes an explicit `now : Nat` parameter
(milliseconds), 32-bit integer coercions are made explicit, and JavaScript
numbers in the quality scorer become exact rationals.
-/

namespace GOmd


/-! ## Association lists modelling JavaScript `Map`

JavaScript `Map` iterates in insertion order; `set` of an existing key
updates in place, `set` of a fresh key appends, `delete` removes the
binding.  We model a map as a list of key/value pairs with these
semantics.  States reachable from the empty map have pairwise distinct
keys, so updating/removing every matching pair agrees with the `Map`
behaviour. -/

def alGet {β : Type _} : List (String × β) → String → Option β
  | [], _ => none
  | kv :: rest, k => if kv.1 = k then some kv.2 else alGet rest k

def alSet {β : Type _} : List (String × β) → String → β → List (String × β)
  | [], k, v => [(k, v)]
  | kv :: rest, k, v => if kv.1 = k then (k, v) :: rest else kv :: alSet rest k v

def alDelete {β : Type _} : List (String × β) → String → List (String × β)
  | [], _ => []
  | kv :: rest, k => if kv.1 = k then alDelete rest k else kv :: alDelete rest k

/-! ## The content hash (`createHash` in the cache utilities module)

`createHash(alg).update(data).digest(enc)` ignores its algorithm and
encoding arguments and computes a 31-ish rolling hash over the UTF-16 code
units of the data string:

  hash = ((hash << 5) - hash) + charCode;  hash = hash & hash;

`<<` coerces its operand to a signed 32-bit integer and produces one, the
subtraction and addition are exact (magnitudes stay below 2^53), and
`hash & hash` coerces the result back to a signed 32-bit integer.  The
digest is `Math.abs(hash).toString(16).padStart(16, '0').slice(0, 16)`.
We model strings fed to the hash as their lists of code-unit values. -/

def toSigned32 (x : ℤ) : ℤ :=
  if x % 4294967296 < 2147483648 then x % 4294967296 else x % 4294967296 - 4294967296

def hashStep (h : ℤ) (c : ℕ) : ℤ :=
  toSigned32 (toSigned32 (h * 32) - h + c)

def hashVal (codes : List ℕ) : ℤ :=
  codes.foldl hashStep 0

/-- The character for one hex digit: codes 48..57 then 97..102, matching
the lowercase output of `toString(16)`. -/
def hexDigitChar (d : ℕ) : Char :=
  if d < 10 then Char.ofNat (48 + d) else Char.ofNat (87 + d)

/-- Hex digits of `n`, least significant first; empty for `n = 0`
(mirrors the recursion inside `Number.prototype.toString(16)`).  The fuel
bounds the digit count; 16 digits cover every value `Math.abs` of a 32-bit
integer can take. -/
def toHexAux : ℕ → ℕ → List Char
  | 0, _ => []
  | fuel + 1, n => if n = 0 then [] else hexDigitChar (n % 16) :: toHexAux fuel (n / 16)

/-- `Number.prototype.toString(16)` for a natural number below `16^16`. -/
def jsHexChars (n : ℕ) : List Char :=
  if n = 0 then ['0'] else (toHexAux 16 n).reverse

/-- `String.prototype.padStart(16, '0')`. -/
def padStart16 (s : List Char) : List Char :=
  List.replicate (16 - s.length) '0' ++ s

/-- The digest string produced by `createHash(...).update(data).digest(...)`
for a data string with the given code units. -/
def digestHex (codes : List ℕ) : String :=
  ⟨(padStart16 (jsHexChars (hashVal codes).natAbs)).take 16⟩

/-- `MemoryCache.generateKey` for a string key: hash the string and keep the
first 16 characters (the digest is already 16 characters long). -/
def generateKey (keyData : List Char) : String :=
  ⟨(digestHex (keyData.map Char.toNat)).data.take 16⟩

/-! ## `MemoryCache` (cache utilities module)

Entries carry the value, creation timestamp, expiry instant, access count
and last-access instant, exactly as the `CacheEntry<T>` interface. -/

structure CacheEntry (α : Type _) where
  data : α
  timestamp : ℕ
  expiresAt : ℕ
  accessCount : ℕ
  lastAccessed : ℕ
  deriving DecidableEq

structure CacheConfig where
  maxSize : ℕ
  ttl : ℕ
  cleanupInterval : ℕ

abbrev CMap (α : Type _) := List (String × CacheEntry α)

namespace MemoryCache

/-- The scan inside `evictLRU`: starting from `lruTime = Infinity`,
`lruKey = null`, keep the entry with the strictly smallest `lastAccessed`
(earlier entries win ties, as in `Map` iteration order). -/
def findLRU {α : Type _} (m : CMap α) : Option (String × CacheEntry α) :=
  m.foldl
    (fun acc kv =>
      match acc with
      | none => some kv
      | some best =>
        if kv.2.lastAccessed < best.2.lastAccessed then some kv else some best)
    none

/-- `evictLRU`.  Note the JavaScript guard `if (lruKey)` before the delete:
it skips the delete not only when `lruKey` is `null` (empty cache) but also
when the selected key is the empty string, which is falsy. -/
def evictLRU {α : Type _} (cfg : CacheConfig) (m : CMap α) : CMap α :=
  if m.length < cfg.maxSize then m
  else
    match findLRU m with
    | none => m
    | some kv => if kv.1 = "" then m else alDelete m kv.1

/-- `set(key, data, customTtl?)`: evict if at capacity, then write a fresh
entry; `customTtl ?? config.ttl` keeps an explicitly passed `0`. -/
def set {α : Type _} (cfg : CacheConfig) (m : CMap α) (k : String) (v : α)
    (customTtl : Option ℕ) (now : ℕ) : CMap α :=
  let ttl := customTtl.getD cfg.ttl
  let m1 := evictLRU cfg m
  alSet m1 k ⟨v, now, now + ttl, 0, now⟩

/-- `get(key)`: expired entries (`now >= expiresAt`) are deleted and
reported as `null`; hits bump `accessCount` and `lastAccessed`. -/
def get {α : Type _} (m : CMap α) (k : String) (now : ℕ) : Option α × CMap α :=
  match alGet m k with
  | none => (none, m)
  | some e =>
    if e.expiresAt ≤ now then (none, alDelete m k)
    else
      let e2 : CacheEntry α :=
        { e with accessCount := e.accessCount + 1, lastAccessed := now }
      (some e2.data, alSet m k e2)

/-- `has(key)`: same expiry handling as `get`, no access-statistics
mutation. -/
def has {α : Type _} (m : CMap α) (k : String) (now : ℕ) : Bool × CMap α :=
  match alGet m k with
  | none => (false, m)
  | some e => if e.expiresAt ≤ now then (false, alDelete m k) else (true, m)

/-- `delete(key)`: returns whether the key was present. -/
def delete {α : Type _} (m : CMap α) (k : String) : Bool × CMap α :=
  ((alGet m k).isSome, alDelete m k)

/-- `clear()`. -/
def clear {α : Type _} : CMap α := ([] : CMap α)

/-- `getOrCompute(keyData, computeFn, customTtl?)`.  The compute function
is modelled by the outcome `f` of its single possible invocation; the last
component counts how many times it was invoked. -/
def getOrCompute {α ε : Type _} (cfg : CacheConfig) (m : CMap α) (keyData : List Char)
    (f : Except ε α) (customTtl : Option ℕ) (now : ℕ) :
    Except ε α × CMap α × ℕ :=
  let key := generateKey keyData
  match get m key now with
  | (some v, m1) => (Except.ok v, m1, 0)
  | (none, m1) =>
    match f with
    | Except.ok r => (Except.ok r, set cfg m1 key r customTtl now, 1)
    | Except.error e => (Except.error e, m1, 1)

end MemoryCache

/-- The operations of the cache's public mutating interface, for stating
state invariants over arbitrary call sequences. -/
inductive CacheOp (α : Type _) where
  | setOp (k : String) (v : α) (customTtl : Option ℕ) (now : ℕ)
  | getOp (k : String) (now : ℕ)
  | hasOp (k : String) (now : ℕ)
  | deleteOp (k : String)
  | clearOp

def applyCacheOp {α : Type _} (cfg : CacheConfig) (m : CMap α) : CacheOp α → CMap α
  | CacheOp.setOp k v ttl now => MemoryCache.set cfg m k v ttl now
  | CacheOp.getOp k now => (MemoryCache.get m k now).2
  | CacheOp.hasOp k now => (MemoryCache.has m k now).2
  | CacheOp.deleteOp k => (MemoryCache.delete m k).2
  | CacheOp.clearOp => MemoryCache.clear

def runCacheOps {α : Type _} (cfg : CacheConfig) (m : CMap α) (ops : List (CacheOp α)) :
    CMap α :=
  ops.foldl (applyCacheOp cfg) m

/-! ### The capacity invariant -/

/-- The store is within capacity and holds no empty-string key. -/
def CapInv {α : Type _} (cfg : CacheConfig) (m : CMap α) : Prop :=
  m.length ≤ cfg.maxSize ∧ ∀ kv ∈ m, kv.1 ≠ ""

/-- `set` operations with a non-empty key; all other operations are
unrestricted. -/
def noEmptySetKey {α : Type _} : CacheOp α → Prop
  | CacheOp.setOp k _ _ _ => k ≠ ""
  | _ => True

/-! ## `RateLimiter` (`src/lib/rate-limiter.ts`)

All `RateLimiter` instances read and write one module-level
`rateLimitStore` map keyed by the client identifier; the store is an
explicit argument threaded through `check`, and the per-call
`Math.random() < 0.1` cleanup decision is an explicit boolean. -/

structure RateLimitConfigM where
  windowMs : ℕ
  maxRequests : ℕ
  deriving DecidableEq

structure RateLimitEntry where
  count : ℕ
  resetTime : ℕ
  deriving DecidableEq

abbrev RLStore := List (String × RateLimitEntry)

/-- The result record of `check`: `remaining` is an integer because the
source computes it by plain subtraction. -/
structure RateLimitResultM where
  success : Bool
  limit : ℕ
  remaining : ℤ
  resetTime : ℕ
  retryAfter : Option ℕ
  deriving DecidableEq

/-- `cleanupExpiredEntries`: drop entries whose window has closed
(`now >= entry.resetTime`). -/
def cleanupExpiredEntries (now : ℕ) (s : RLStore) : RLStore :=
  s.filter (fun kv => decide (now < kv.2.resetTime))

namespace RateLimiter

/-- `check(request)` for the identifier `key` at instant `now`.
`doCleanup` is the outcome of the `Math.random() < 0.1` draw. -/
def check (cfg : RateLimitConfigM) (s : RLStore) (key : String) (now : ℕ)
    (doCleanup : Bool) : RateLimitResultM × RLStore :=
  let s1 := if doCleanup then cleanupExpiredEntries now s else s
  let resetTime := now + cfg.windowMs
  match alGet s1 key with
  | none =>
    (⟨true, cfg.maxRequests, (cfg.maxRequests : ℤ) - 1, resetTime, none⟩,
     alSet s1 key ⟨1, resetTime⟩)
  | some e =>
    if e.resetTime ≤ now then
      (⟨true, cfg.maxRequests, (cfg.maxRequests : ℤ) - 1, resetTime, none⟩,
       alSet s1 key ⟨1, resetTime⟩)
    else if cfg.maxRequests ≤ e.count then
      (⟨false, cfg.maxRequests, 0, e.resetTime,
        some ((e.resetTime - now + 999) / 1000)⟩, s1)
    else
      (⟨true, cfg.maxRequests, (cfg.maxRequests : ℤ) - (e.count + 1), e.resetTime, none⟩,
       alSet s1 key ⟨e.count + 1, e.resetTime⟩)

/-- `reset(request)`: clears the identifier's entry in the shared store. -/
def reset (s : RLStore) (key : String) : RLStore := alDelete s key

end RateLimiter

/-! ## Memory-guarded file processing (`src/lib/memory-optimizer.ts`)

`processFileWithMemoryControl` prechecks the file size, loads the bytes
into a `FileBuffer`, runs the processor, and in a `finally` block clears
the buffer and, when `enableGC` and `global.gc` are available, calls the
garbage collector.  We model the runtime environment by booleans: whether
`global.gc` exists (`gcAvail`), whether `file.arrayBuffer()` succeeds
(`loadOk`), and whether the pre-load available-memory check triggers the
early collection hint (`memPressure`).  The trace counts reclamation hints
issued and processor invocations. -/

structure JsFile where
  size : ℕ
  deriving DecidableEq

structure FileBufferSt where
  buffer : Option ℕ
  bsize : ℕ
  lastAccessed : ℕ
  maxSize : ℕ
  deriving DecidableEq

inductive ProcError (ε : Type _) where
  | fileTooLarge (sizeMB maxMB : ℕ)
  | loadFailed
  | processorError (e : ε)
  deriving DecidableEq

structure MemTrace where
  gcHints : ℕ
  processorCalls : ℕ
  deriving DecidableEq

/-- `Math.round(x / 1024 / 1024)` for a byte count. -/
def roundDivMB (x : ℕ) : ℕ := (x + 524288) / 1048576

namespace FileBuffer

/-- `clear()`: drop the buffer and suggest collection if available; the
second component counts the hints issued. -/
def clear (fb : FileBufferSt) (gcAvail : Bool) : FileBufferSt × ℕ :=
  ({ fb with buffer := none, bsize := 0 }, if gcAvail then 1 else 0)

/-- `load(file)`: size check against the buffer's own limit, optional
pre-load collection hint under memory pressure, then either the loaded
bytes or a cleared buffer and a wrapped error. -/
def load (fb : FileBufferSt) (file : JsFile) (loadOk gcAvail memPressure : Bool)
    (now : ℕ) : Except Unit ℕ × FileBufferSt × ℕ :=
  if fb.maxSize < file.size then (Except.error (), fb, 0)
  else
    let g1 := if memPressure && gcAvail then 1 else 0
    if loadOk then
      (Except.ok file.size,
       { fb with buffer := some file.size, bsize := file.size, lastAccessed := now }, g1)
    else
      let cleared := clear fb gcAvail
      (Except.error (), cleared.1, g1 + cleared.2)

end FileBuffer

/-- `processFileWithMemoryControl(file, processor, options)`.  The middle
component is the final `FileBuffer` state (`none` when the precheck threw
before the buffer existed); the trace records reclamation hints and
processor invocations. -/
def processFileWithMemoryControl {ε T : Type _} (file : JsFile)
    (processor : ℕ → Except ε T) (maxFileSize : ℕ)
    (enableGC gcAvail loadOk memPressure : Bool) (now : ℕ) :
    Except (ProcError ε) T × Option FileBufferSt × MemTrace :=
  if maxFileSize < file.size then
    (Except.error (ProcError.fileTooLarge (roundDivMB file.size) (roundDivMB maxFileSize)),
     none, ⟨0, 0⟩)
  else
    let fb0 : FileBufferSt := ⟨none, 0, now, maxFileSize⟩
    match FileBuffer.load fb0 file loadOk gcAvail memPressure now with
    | (Except.error _, fb1, g1) =>
      let cleared := FileBuffer.clear fb1 gcAvail
      let g3 := if enableGC && gcAvail then 1 else 0
      (Except.error ProcError.loadFailed, some cleared.1, ⟨g1 + cleared.2 + g3, 0⟩)
    | (Except.ok buf, fb1, g1) =>
      match processor buf with
      | Except.ok t =>
        let cleared := FileBuffer.clear fb1 gcAvail
        let g3 := if enableGC && gcAvail then 1 else 0
        (Except.ok t, some cleared.1, ⟨g1 + cleared.2 + g3, 1⟩)
      | Except.error e =>
        let cleared := FileBuffer.clear fb1 gcAvail
        let g3 := if enableGC && gcAvail then 1 else 0
        (Except.error (ProcError.processorError e), some cleared.1, ⟨g1 + cleared.2 + g3, 1⟩)

/-! ## Quality scorer (`calculateMarkdownCompleteness` in the utils module)

Strings are lists of characters; JavaScript numbers become exact
rationals (every arithmetic step in the source stays well inside the
exactly-representable range, and rounding of a monotone float sum is
monotone, so the rational model preserves the order facts we prove).

The regular expressions are compiled to direct list programs:
  * `/^#+\s/gm` matches at a line start: one or more `#` then a whitespace
    character, where `\s` may be the very `\n` terminating the line, so a
    line of hashes matches unless it is the last line;
  * `/^[\s]*[-*+]\s/gm` similarly, with leading whitespace allowed (a match
    whose `[\s]*` crosses lines starts a match on the bullet's own line as
    well, so per-line matching captures existence);
  * `/\|.*\|/` holds iff some line contains two pipes (`.` excludes `\n`);
  * `/\$\$[\s\S]*?\$\$/` holds iff two disjoint `$$` occurrences exist;
  * the counted classes are single-character classes, except
    `/\\[a-zA-Z]+/g` whose match count equals the number of positions where
    a backslash is immediately followed by a letter. -/

/-- JavaScript `\s` on the characters appearing here (space, tab, newline,
carriage return, vertical tab, form feed, no-break space, BOM). -/
def isJsWs (c : Char) : Bool :=
  c == ' ' || c == '\t' || c == '\n' || c == '\r' ||
  c == '\x0b' || c == '\x0c' || c == ' ' || c == '﻿'

/-- Split on `'\n'`; always returns at least one (possibly empty) line. -/
def linesOf : List Char → List (List Char)
  | [] => [[]]
  | c :: rest =>
    let ls := linesOf rest
    if c = '\n' then [] :: ls else (c :: ls.headI) :: ls.tail

/-- Does any line satisfy `p`, where `p` also receives whether the line is
the final one (the final line is not followed by a `'\n'` that `\s` could
consume)? -/
def anyLineWithLast (p : Bool → List Char → Bool) : List (List Char) → Bool
  | [] => false
  | [ln] => p true ln
  | ln :: l2 :: rest => p false ln || anyLineWithLast p (l2 :: rest)

/-- A line matching `#+\s` at its start (`\s` may be the terminating
newline when the line is not the last). -/
def headingLine (isLast : Bool) (ln : List Char) : Bool :=
  match ln with
  | [] => false
  | c :: rest =>
    if c = '#' then
      match rest.dropWhile (· == '#') with
      | c2 :: _ => isJsWs c2
      | [] => !isLast
    else false

/-- A line matching `[\s]*[-*+]\s` at its start. -/
def listLine (isLast : Bool) (ln : List Char) : Bool :=
  match ln.dropWhile isJsWs with
  | b :: rest =>
    (b == '-' || b == '*' || b == '+') &&
      (match rest with
       | c :: _ => isJsWs c
       | [] => !isLast)
  | [] => false

def hasHeading (md : List Char) : Bool := anyLineWithLast headingLine (linesOf md)

def hasListMarker (md : List Char) : Bool := anyLineWithLast listLine (linesOf md)

def hasTableRow (md : List Char) : Bool :=
  (linesOf md).any (fun ln => 2 ≤ ln.count '|')

/-- The suffix after the first two consecutive dollar signs. -/
def afterDD : List Char → Option (List Char)
  | [] => none
  | [_] => none
  | a :: b :: rest => if a = '$' && b = '$' then some rest else afterDD (b :: rest)

def hasMathBlock (md : List Char) : Bool :=
  ((afterDD md).bind afterDD).isSome

def hasDoubleNewline : List Char → Bool
  | [] => false
  | [_] => false
  | a :: b :: rest => (a = '\n' && b = '\n') || hasDoubleNewline (b :: rest)

def mathGlyphs : List Char := ['∫', '∑', '∏', '∂', '∇', '√', 'π']

def supSubMarks : List Char := ['^', '_']

def relationalOps : List Char := ['=', '<', '>', '≤', '≥', '≠']

def countClass (cs : List Char) (s : List Char) : ℕ :=
  s.countP (fun c => cs.contains c)

/-- Match count of `/\\[a-zA-Z]+/g`: the number of positions where a
backslash is immediately followed by an ASCII letter (each such backslash
starts exactly one maximal match, and no backslash lies inside a match). -/
def countLatexCommands : List Char → ℕ
  | [] => 0
  | [_] => 0
  | a :: b :: rest => (if a = '\\' && b.isAlpha then 1 else 0) + countLatexCommands (b :: rest)

/-- Component 1: `min(1, markdown.length / max(extracted.length, 1)) * 30`. -/
def lengthScore (src md : List Char) : ℚ :=
  min 1 ((md.length : ℚ) / ((max src.length 1 : ℕ) : ℚ)) * 30

/-- Component 2: fixed points for the presence of headings (10), `$$`
blocks (15), table rows (8) and list markers (7). -/
def elementsScore (md : List Char) : ℚ :=
  (if hasHeading md then 10 else 0) + (if hasMathBlock md then 15 else 0) +
    (if hasTableRow md then 8 else 0) + (if hasListMarker md then 7 else 0)

/-- One pattern's contribution to component 3. -/
def patternRatioScore (srcN mdN : ℕ) : ℚ :=
  if 0 < srcN then min 1 ((mdN : ℚ) / (srcN : ℚ)) * 5 else 0

/-- Component 3: math-symbol fidelity over the four symbol classes. -/
def mathDetectionScore (src md : List Char) : ℚ :=
  patternRatioScore (countClass mathGlyphs src) (countClass mathGlyphs md) +
    patternRatioScore (countClass supSubMarks src) (countClass supSubMarks md) +
    patternRatioScore (countLatexCommands src) (countLatexCommands md) +
    patternRatioScore (countClass relationalOps src) (countClass relationalOps md)

/-- Component 4: 10 points for a blank line. -/
def structureScore (md : List Char) : ℚ :=
  if hasDoubleNewline md then 10 else 0

/-- `calculateMarkdownCompleteness(extractedText, markdown)`:
`Math.min(100, Math.round(total))`, with `Math.round x = ⌊x + 1/2⌋` for the
non-negative totals arising here. -/
def calculateMarkdownCompleteness (extractedText markdown : List Char) : ℤ :=
  min 100 ⌊lengthScore extractedText markdown + elementsScore markdown +
    mathDetectionScore extractedText markdown + structureScore markdown + 1 / 2⌋

/-- A sequence of `check` calls for one identifier: the list of results and
the final store. -/
def checkRun (cfg : RateLimitConfigM) (s : RLStore) (key : String) :
    List (ℕ × Bool) → List RateLimitResultM × RLStore
  | [] => ([], s)
  | (now, b) :: rest =>
    let r := RateLimiter.check cfg s key now b
    let next := checkRun cfg r.2 key rest
    (r.1 :: next.1, next.2)

/-- A syntactically valid markdown heading line: one or more `#`, a space,
and a remainder that contains no newline. -/
def validHeadingLine (h : List Char) : Prop :=
  (∃ k t, 1 ≤ k ∧ h = List.replicate k '#' ++ ' ' :: t) ∧ '\n' ∉ h

theorem alGet_alSet_self {β : Type _} (m : List (String × β)) (k : String) (v : β) :
    alGet (alSet m k v) k = some v := by
  induction m with
  | nil => simp [alSet, alGet]
  | cons kv rest ih =>
    by_cases h : kv.1 = k
    · simp [alSet, h, alGet]
    · simp [alSet, h, alGet, ih]

theorem alGet_alSet_ne {β : Type _} (m : List (String × β)) (k k' : String) (v : β)
    (h : k' ≠ k) : alGet (alSet m k v) k' = alGet m k' := by
  induction m with
  | nil => simp [alSet, alGet, Ne.symm h]
  | cons kv rest ih =>
    by_cases hk : kv.1 = k
    · subst hk
      simp [alSet, alGet, Ne.symm h]
    · by_cases hk' : kv.1 = k'
      · simp [alSet, hk, alGet, hk', h]
      · simp [alSet, hk, alGet, hk', ih]

theorem alGet_alDelete_self {β : Type _} (m : List (String × β)) (k : String) :
    alGet (alDelete m k) k = none := by
  induction m with
  | nil => simp [alDelete, alGet]
  | cons kv rest ih =>
    by_cases h : kv.1 = k
    · simp [alDelete, h, ih]
    · simp [alDelete, h, alGet, ih]

theorem alGet_alDelete_ne {β : Type _} (m : List (String × β)) (k k' : String)
    (h : k' ≠ k) : alGet (alDelete m k) k' = alGet m k' := by
  induction m with
  | nil => simp [alDelete, alGet]
  | cons kv rest ih =>
    by_cases hk : kv.1 = k
    · subst hk
      simp [alDelete, alGet, Ne.symm h, ih]
    · by_cases hk' : kv.1 = k'
      · simp [alDelete, hk, alGet, hk', h]
      · simp [alDelete, hk, alGet, hk', ih]

theorem length_alSet {β : Type _} (m : List (String × β)) (k : String) (v : β) :
    (alSet m k v).length = if (alGet m k).isSome then m.length else m.length + 1 := by
  induction m with
  | nil => simp [alSet, alGet]
  | cons kv rest ih =>
    by_cases h : kv.1 = k
    · simp [alSet, h, alGet]
    · simp only [alSet, h, if_false, List.length_cons, alGet, ih]
      by_cases h2 : (alGet rest k).isSome <;> simp [h2]

theorem length_alDelete_le {β : Type _} (m : List (String × β)) (k : String) :
    (alDelete m k).length ≤ m.length := by
  induction m with
  | nil => simp [alDelete]
  | cons kv rest ih =>
    by_cases h : kv.1 = k
    · simp only [alDelete, h, if_true]
      exact Nat.le_succ_of_le ih
    · simpa [alDelete, h] using ih

theorem length_alDelete_lt {β : Type _} (m : List (String × β)) (k : String)
    (h : (alGet m k).isSome) : (alDelete m k).length < m.length := by
  induction m with
  | nil => simp [alGet] at h
  | cons kv rest ih =>
    by_cases hk : kv.1 = k
    · simp only [alDelete, hk, if_true, List.length_cons]
      exact Nat.lt_succ_of_le (length_alDelete_le rest k)
    · simp only [alGet, hk, if_false] at h
      simpa [alDelete, hk] using Nat.succ_lt_succ (ih h)

theorem alGet_isSome_of_mem_key {β : Type _} (m : List (String × β)) (kv : String × β)
    (h : kv ∈ m) : (alGet m kv.1).isSome := by
  induction m with
  | nil => simp at h
  | cons hd rest ih =>
    rcases List.mem_cons.mp h with h | h
    · subst h; simp [alGet]
    · by_cases hk : hd.1 = kv.1
      · simp [alGet, hk]
      · simpa [alGet, hk] using ih h

theorem alGet_filter_of_pred {β : Type _} (m : List (String × β)) (k : String)
    (q : String × β → Bool) (e : β) (hget : alGet m k = some e) (hq : q (k, e) = true) :
    alGet (m.filter q) k = some e := by
  induction m with
  | nil => simp [alGet] at hget
  | cons kv rest ih =>
    obtain ⟨k1, v1⟩ := kv
    by_cases hk : k1 = k
    · subst hk
      simp only [alGet, if_true, eq_self_iff_true, Option.some.injEq] at hget
      subst hget
      simp [List.filter_cons, hq, alGet]
    · simp only [alGet, hk, if_false] at hget
      by_cases hqkv : q (k1, v1) = true
      · simpa [List.filter_cons, hqkv, alGet, hk] using ih hget
      · simp only [Bool.not_eq_true] at hqkv
        simpa [List.filter_cons, hqkv] using ih hget

theorem alGet_filter_of_none {β : Type _} (m : List (String × β)) (k : String)
    (q : String × β → Bool) (hget : alGet m k = none) :
    alGet (m.filter q) k = none := by
  induction m with
  | nil => simp [alGet]
  | cons kv rest ih =>
    by_cases hk : kv.1 = k
    · simp [alGet, hk] at hget
    · simp only [alGet, hk, if_false] at hget
      by_cases hqkv : q kv = true
      · simpa [List.filter_cons, hqkv, alGet, hk] using ih hget
      · simp only [Bool.not_eq_true] at hqkv
        simpa [List.filter_cons, hqkv] using ih hget

theorem toSigned32_lb (x : ℤ) : -2147483648 ≤ toSigned32 x := by
  have h0 : (0 : ℤ) ≤ x % 4294967296 := Int.emod_nonneg x (by norm_num)
  unfold toSigned32
  split_ifs <;> omega

theorem toSigned32_ub (x : ℤ) : toSigned32 x < 2147483648 := by
  have h1 : x % 4294967296 < 4294967296 := Int.emod_lt_of_pos x (by norm_num)
  unfold toSigned32
  split_ifs <;> omega

theorem hashVal_natAbs_le (codes : List ℕ) : (hashVal codes).natAbs ≤ 2147483648 := by
  have key : ∀ (cs : List ℕ) (h : ℤ), -2147483648 ≤ h → h < 2147483648 →
      -2147483648 ≤ cs.foldl hashStep h ∧ cs.foldl hashStep h < 2147483648 := by
    intro cs
    induction cs with
    | nil => intro h hl hu; exact ⟨hl, hu⟩
    | cons c rest ih =>
      intro h hl hu
      exact ih (hashStep h c) (toSigned32_lb _) (toSigned32_ub _)
  have := key codes 0 (by norm_num) (by norm_num)
  unfold hashVal
  omega

theorem hexDigitChar_ne_zero (d : ℕ) (h1 : 1 ≤ d) (h16 : d < 16) :
    hexDigitChar d ≠ '0' := by
  interval_cases d <;> decide

theorem toHexAux_length_le (fuel : ℕ) : ∀ n : ℕ, (toHexAux fuel n).length ≤ fuel := by
  induction fuel with
  | zero => intro n; simp [toHexAux]
  | succ fuel ih =>
    intro n
    by_cases hn : n = 0
    · simp [toHexAux, hn]
    · simp only [toHexAux, hn, if_false, List.length_cons]
      exact Nat.succ_le_succ (ih (n / 16))

theorem toHexAux_exists_ne_zero (fuel : ℕ) : ∀ n : ℕ, n ≠ 0 → n < 16 ^ fuel →
    ∃ c ∈ toHexAux fuel n, c ≠ '0' := by
  induction fuel with
  | zero =>
    intro n hn h
    simp only [pow_zero, Nat.lt_one_iff] at h
    exact absurd h hn
  | succ fuel ih =>
    intro n hn h
    simp only [toHexAux, hn, if_false]
    by_cases hd : n / 16 = 0
    · have h16 : n < 16 := (Nat.div_eq_zero_iff (by norm_num : 0 < 16)).mp hd
      have hmod : n % 16 = n := Nat.mod_eq_of_lt h16
      refine ⟨hexDigitChar (n % 16), List.mem_cons_self _ _, ?_⟩
      rw [hmod]
      exact hexDigitChar_ne_zero n (Nat.one_le_iff_ne_zero.mpr hn) h16
    · have hlt : n / 16 < 16 ^ fuel := by
        rw [Nat.div_lt_iff_lt_mul (by norm_num : 0 < 16)]
        calc n < 16 ^ (fuel + 1) := h
          _ = 16 ^ fuel * 16 := by ring
      obtain ⟨c, hc, hc0⟩ := ih (n / 16) hd hlt
      exact ⟨c, List.mem_cons_of_mem _ hc, hc0⟩

theorem digestHex_ne_of_hashVal_ne_zero (codes : List ℕ) (h : hashVal codes ≠ 0) :
    digestHex codes ≠ digestHex [] := by
  intro heq
  have hempty : digestHex [] = ⟨List.replicate 16 '0'⟩ := by decide
  have hn0 : (hashVal codes).natAbs ≠ 0 := by simpa [Int.natAbs_eq_zero] using h
  set n := (hashVal codes).natAbs with hn
  have hjs : jsHexChars n = (toHexAux 16 n).reverse := by rw [jsHexChars, if_neg hn0]
  have hlen : (toHexAux 16 n).length ≤ 16 := toHexAux_length_le 16 n
  have hlen2 : (padStart16 (jsHexChars n)).length ≤ 16 := by
    rw [padStart16, List.length_append, List.length_replicate, hjs, List.length_reverse]
    omega
  have htake : (padStart16 (jsHexChars n)).take 16 = padStart16 (jsHexChars n) :=
    List.take_of_length_le hlen2
  have hbound : n < 16 ^ 16 := by
    calc n ≤ 2147483648 := hashVal_natAbs_le codes
      _ < 16 ^ 16 := by norm_num
  obtain ⟨c, hcmem, hc0⟩ := toHexAux_exists_ne_zero 16 n hn0 hbound
  have hcmem2 : c ∈ (padStart16 (jsHexChars n)).take 16 := by
    rw [htake, padStart16, hjs]
    exact List.mem_append_right _ (List.mem_reverse.mpr hcmem)
  have hdata : (padStart16 (jsHexChars n)).take 16 = List.replicate 16 '0' := by
    have h2 : digestHex codes = ⟨List.replicate 16 '0'⟩ := heq.trans hempty
    simpa [digestHex, ← hn] using congrArg String.data h2
  rw [hdata] at hcmem2
  exact hc0 (List.eq_of_mem_replicate hcmem2)

theorem mem_alSet {β : Type _} (m : List (String × β)) (k : String) (v : β)
    (kv : String × β) (h : kv ∈ alSet m k v) : kv = (k, v) ∨ kv ∈ m := by
  induction m with
  | nil => simpa [alSet] using h
  | cons hd rest ih =>
    by_cases hk : hd.1 = k
    · simp only [alSet, hk, if_true] at h
      rcases List.mem_cons.mp h with h | h
      · exact Or.inl h
      · exact Or.inr (List.mem_cons_of_mem _ h)
    · simp only [alSet, hk, if_false] at h
      rcases List.mem_cons.mp h with h | h
      · exact Or.inr (h ▸ List.mem_cons_self _ _)
      · rcases ih h with h | h
        · exact Or.inl h
        · exact Or.inr (List.mem_cons_of_mem _ h)

theorem mem_alDelete {β : Type _} (m : List (String × β)) (k : String)
    (kv : String × β) (h : kv ∈ alDelete m k) : kv ∈ m := by
  induction m with
  | nil => simp [alDelete] at h
  | cons hd rest ih =>
    by_cases hk : hd.1 = k
    · simp only [alDelete, hk, if_true] at h
      exact List.mem_cons_of_mem _ (ih h)
    · simp only [alDelete, hk, if_false] at h
      rcases List.mem_cons.mp h with h | h
      · exact h ▸ List.mem_cons_self _ _
      · exact List.mem_cons_of_mem _ (ih h)

theorem alGet_eq_some_mem {β : Type _} (m : List (String × β)) (k : String) (e : β)
    (h : alGet m k = some e) : (k, e) ∈ m := by
  induction m with
  | nil => simp [alGet] at h
  | cons hd rest ih =>
    by_cases hk : hd.1 = k
    · simp only [alGet, hk, if_true, Option.some.injEq] at h
      subst h
      have : hd = (k, hd.2) := by
        obtain ⟨h1, h2⟩ := hd
        simp only at hk
        rw [hk]
      exact this ▸ List.mem_cons_self _ _
    · simp only [alGet, hk, if_false] at h
      exact List.mem_cons_of_mem _ (ih h)

theorem findLRU_foldl_mem {α : Type _} (m : CMap α) :
    ∀ (acc : Option (String × CacheEntry α)) (kv : String × CacheEntry α),
      m.foldl
        (fun acc kv =>
          match acc with
          | none => some kv
          | some best =>
            if kv.2.lastAccessed < best.2.lastAccessed then some kv else some best)
        acc = some kv →
      acc = some kv ∨ kv ∈ m := by
  induction m with
  | nil => intro acc kv h; exact Or.inl h
  | cons hd rest ih =>
    intro acc kv h
    simp only [List.foldl_cons] at h
    rcases ih _ kv h with h2 | h2
    · match acc with
      | none =>
        simp only [Option.some.injEq] at h2
        exact Or.inr (h2 ▸ List.mem_cons_self _ _)
      | some best =>
        by_cases hlt : hd.2.lastAccessed < best.2.lastAccessed
        · simp only [hlt, if_true, Option.some.injEq] at h2
          exact Or.inr (h2 ▸ List.mem_cons_self _ _)
        · simp only [hlt, if_false, Option.some.injEq] at h2
          exact Or.inl (congrArg some h2)
    · exact Or.inr (List.mem_cons_of_mem _ h2)

theorem findLRU_mem {α : Type _} (m : CMap α) (kv : String × CacheEntry α)
    (h : MemoryCache.findLRU m = some kv) : kv ∈ m := by
  rcases findLRU_foldl_mem m none kv h with h2 | h2
  · exact absurd h2 (by simp)
  · exact h2

theorem findLRU_foldl_isSome {α : Type _} (m : CMap α)
    (acc : Option (String × CacheEntry α)) (hacc : acc.isSome) :
    (m.foldl
      (fun acc kv =>
        match acc with
        | none => some kv
        | some best =>
          if kv.2.lastAccessed < best.2.lastAccessed then some kv else some best)
      acc).isSome := by
  induction m generalizing acc with
  | nil => exact hacc
  | cons hd rest ih =>
    simp only [List.foldl_cons]
    match acc, hacc with
    | some best, _ =>
      by_cases hlt : hd.2.lastAccessed < best.2.lastAccessed
      · simpa [hlt] using ih (some hd) rfl
      · simpa [hlt] using ih (some best) rfl

theorem findLRU_isSome {α : Type _} (m : CMap α) (h : m ≠ []) :
    (MemoryCache.findLRU m).isSome := by
  match m, h with
  | kv :: rest, _ =>
    simp only [MemoryCache.findLRU, List.foldl_cons]
    exact findLRU_foldl_isSome rest (some kv) rfl

/-- Frame property of `get`: keys other than the requested one are
untouched. -/
theorem get_frame {α : Type _} (m : CMap α) (k k' : String) (now : ℕ) (h : k' ≠ k) :
    alGet (MemoryCache.get m k now).2 k' = alGet m k' := by
  unfold MemoryCache.get
  cases hget : alGet m k with
  | none => simp
  | some e =>
    by_cases hexp : e.expiresAt ≤ now
    · simp [hexp, alGet_alDelete_ne m k k' h]
    · simp [hexp, alGet_alSet_ne m k k' _ h]

/-- A miss of `get` (absent or expired entry) leaves the key absent in the
resulting store. -/
theorem get_miss_state {α : Type _} (m : CMap α) (k : String) (now : ℕ)
    (h : (MemoryCache.get m k now).1 = none) :
    alGet (MemoryCache.get m k now).2 k = none := by
  unfold MemoryCache.get at h ⊢
  cases hget : alGet m k with
  | none => simp [hget]
  | some e =>
    by_cases hexp : e.expiresAt ≤ now
    · simp [hget, hexp, alGet_alDelete_self]
    · simp [hget, hexp] at h

theorem evictLRU_length {α : Type _} (cfg : CacheConfig) (m : CMap α)
    (hlen : m.length ≤ cfg.maxSize) (h1 : 1 ≤ cfg.maxSize)
    (hkeys : ∀ kv ∈ m, kv.1 ≠ "") :
    (MemoryCache.evictLRU cfg m).length < cfg.maxSize := by
  unfold MemoryCache.evictLRU
  by_cases hfull : m.length < cfg.maxSize
  · rw [if_pos hfull]
    exact hfull
  · have hlen2 : m.length = cfg.maxSize := le_antisymm hlen (Nat.le_of_not_lt hfull)
    have hne : m ≠ [] := by
      intro hnil
      rw [hnil] at hlen2
      simp at hlen2
      omega
    obtain ⟨kv, hkv⟩ := Option.isSome_iff_exists.mp (findLRU_isSome m hne)
    have hmem : kv ∈ m := findLRU_mem m kv hkv
    have hkne : kv.1 ≠ "" := hkeys kv hmem
    have hdel : (alDelete m kv.1).length < m.length :=
      length_alDelete_lt m kv.1 (alGet_isSome_of_mem_key m kv hmem)
    simp only [hfull, if_false, hkv, hkne]
    omega

theorem evictLRU_subset {α : Type _} (cfg : CacheConfig) (m : CMap α)
    (kv : String × CacheEntry α) (h : kv ∈ MemoryCache.evictLRU cfg m) : kv ∈ m := by
  unfold MemoryCache.evictLRU at h
  split at h
  · exact h
  · split at h
    · exact h
    · split at h
      · exact h
      · exact mem_alDelete m _ kv h

theorem capInv_set {α : Type _} (cfg : CacheConfig) (m : CMap α) (k : String) (v : α)
    (ttl : Option ℕ) (now : ℕ) (h : CapInv cfg m) (h1 : 1 ≤ cfg.maxSize) (hk : k ≠ "") :
    CapInv cfg (MemoryCache.set cfg m k v ttl now) := by
  obtain ⟨hlen, hkeys⟩ := h
  have hev : (MemoryCache.evictLRU cfg m).length < cfg.maxSize :=
    evictLRU_length cfg m hlen h1 hkeys
  constructor
  · unfold MemoryCache.set
    rw [length_alSet]
    split_ifs <;> omega
  · intro kv hkv
    unfold MemoryCache.set at hkv
    rcases mem_alSet _ _ _ kv hkv with h2 | h2
    · rw [h2]; exact hk
    · exact hkeys kv (evictLRU_subset cfg m kv h2)

theorem capInv_get {α : Type _} (cfg : CacheConfig) (m : CMap α) (k : String) (now : ℕ)
    (h : CapInv cfg m) : CapInv cfg (MemoryCache.get m k now).2 := by
  obtain ⟨hlen, hkeys⟩ := h
  unfold MemoryCache.get
  cases hget : alGet m k with
  | none => exact ⟨hlen, hkeys⟩
  | some e =>
    by_cases hexp : e.expiresAt ≤ now
    · simp only [hexp, if_true]
      exact ⟨le_trans (length_alDelete_le m k) hlen,
        fun kv hkv => hkeys kv (mem_alDelete m k kv hkv)⟩
    · simp only [hexp, if_false]
      constructor
      · rw [length_alSet]
        simp [hget, hlen]
      · intro kv hkv
        rcases mem_alSet _ _ _ kv hkv with h2 | h2
        · rw [h2]
          exact hkeys (k, e) (alGet_eq_some_mem m k e hget)
        · exact hkeys kv h2

theorem capInv_has {α : Type _} (cfg : CacheConfig) (m : CMap α) (k : String) (now : ℕ)
    (h : CapInv cfg m) : CapInv cfg (MemoryCache.has m k now).2 := by
  obtain ⟨hlen, hkeys⟩ := h
  unfold MemoryCache.has
  cases hget : alGet m k with
  | none => exact ⟨hlen, hkeys⟩
  | some e =>
    by_cases hexp : e.expiresAt ≤ now
    · simp only [hexp, if_true]
      exact ⟨le_trans (length_alDelete_le m k) hlen,
        fun kv hkv => hkeys kv (mem_alDelete m k kv hkv)⟩
    · simp only [hexp, if_false]
      exact ⟨hlen, hkeys⟩

theorem capInv_delete {α : Type _} (cfg : CacheConfig) (m : CMap α) (k : String)
    (h : CapInv cfg m) : CapInv cfg (MemoryCache.delete m k).2 := by
  obtain ⟨hlen, hkeys⟩ := h
  exact ⟨le_trans (length_alDelete_le m k) hlen,
    fun kv hkv => hkeys kv (mem_alDelete m k kv hkv)⟩

theorem capInv_applyCacheOp {α : Type _} (cfg : CacheConfig) (m : CMap α)
    (op : CacheOp α) (h : CapInv cfg m) (h1 : 1 ≤ cfg.maxSize)
    (hop : noEmptySetKey op) : CapInv cfg (applyCacheOp cfg m op) := by
  cases op with
  | setOp k v ttl now => exact capInv_set cfg m k v ttl now h h1 hop
  | getOp k now => exact capInv_get cfg m k now h
  | hasOp k now => exact capInv_has cfg m k now h
  | deleteOp k => exact capInv_delete cfg m k h
  | clearOp =>
    refine ⟨?_, ?_⟩
    · simp [applyCacheOp, MemoryCache.clear]
    · intro kv hkv
      simp [applyCacheOp, MemoryCache.clear] at hkv

theorem capInv_runCacheOps {α : Type _} (cfg : CacheConfig) (ops : List (CacheOp α)) :
    ∀ (m : CMap α), CapInv cfg m → 1 ≤ cfg.maxSize →
      (∀ op ∈ ops, noEmptySetKey op) → CapInv cfg (runCacheOps cfg m ops) := by
  induction ops with
  | nil => intro m h _ _; exact h
  | cons op rest ih =>
    intro m h h1 hops
    rw [runCacheOps, List.foldl_cons]
    exact ih _ (capInv_applyCacheOp cfg m op h h1 (hops op (List.mem_cons_self _ _)))
      h1 (fun o ho => hops o (List.mem_cons_of_mem _ ho))

/-- A live (not yet expired) entry survives the probabilistic cleanup and
the optional pre-pass of `check` leaves it visible. -/
theorem alGet_cleanup_live (s : RLStore) (key : String) (now : ℕ) (e : RateLimitEntry)
    (hget : alGet s key = some e) (hlive : now < e.resetTime) :
    alGet (cleanupExpiredEntries now s) key = some e :=
  alGet_filter_of_pred s key _ e hget (by simpa using hlive)

theorem alGet_cleanup_none (s : RLStore) (key : String) (now : ℕ)
    (hget : alGet s key = none) :
    alGet (cleanupExpiredEntries now s) key = none :=
  alGet_filter_of_none s key _ hget

/-! ### Monotonicity of the completeness score under appending a line -/

theorem linesOf_ne_nil (l : List Char) : linesOf l ≠ [] := by
  cases l with
  | nil => simp [linesOf]
  | cons c rest => by_cases h : c = '\n' <;> simp [linesOf, h]

theorem linesOf_append_newline (a b : List Char) :
    linesOf (a ++ '\n' :: b) = linesOf a ++ linesOf b := by
  induction a with
  | nil => simp [linesOf]
  | cons c rest ih =>
    by_cases h : c = '\n'
    · simp [linesOf, h, ih]
    · obtain ⟨hd, tl, hx⟩ := List.exists_cons_of_ne_nil (linesOf_ne_nil rest)
      simp [linesOf, h, ih, hx]

theorem anyLineWithLast_append_left (p : Bool → List Char → Bool)
    (hmono : ∀ ln, p true ln = true → p false ln = true) :
    ∀ (l1 l2 : List (List Char)), anyLineWithLast p l1 = true → l2 ≠ [] →
      anyLineWithLast p (l1 ++ l2) = true := by
  intro l1
  induction l1 with
  | nil => intro l2 h1 h2; simp [anyLineWithLast] at h1
  | cons ln rest ih =>
    intro l2 h1 h2
    cases rest with
    | nil =>
      simp only [anyLineWithLast] at h1
      cases l2 with
      | nil => exact absurd rfl h2
      | cons x l2t =>
        simp only [List.singleton_append, anyLineWithLast, Bool.or_eq_true]
        exact Or.inl (hmono ln h1)
    | cons l2a rest2 =>
      simp only [anyLineWithLast, Bool.or_eq_true] at h1
      simp only [List.cons_append, anyLineWithLast, Bool.or_eq_true]
      rcases h1 with h1 | h1
      · exact Or.inl h1
      · have h3 := ih l2 h1 h2
        rw [List.cons_append] at h3
        exact Or.inr h3

theorem headingLine_isLast_mono (ln : List Char) (h : headingLine true ln = true) :
    headingLine false ln = true := by
  cases ln with
  | nil => simp [headingLine] at h
  | cons c rest =>
    by_cases hc : c = '#'
    · cases hdw : rest.dropWhile (· == '#') with
      | nil => simp [headingLine, hc, hdw] at h
      | cons x xs =>
        simp only [headingLine, hc, if_true, hdw] at h ⊢
        exact h
    · simp [headingLine, hc] at h

theorem listLine_isLast_mono (ln : List Char) (h : listLine true ln = true) :
    listLine false ln = true := by
  cases hdw : ln.dropWhile isJsWs with
  | nil => simp [listLine, hdw] at h
  | cons b rest =>
    cases rest with
    | nil => simp [listLine, hdw] at h
    | cons x xs =>
      simp only [listLine, hdw] at h ⊢
      exact h

theorem hasHeading_append_line (md b : List Char) (h : hasHeading md = true) :
    hasHeading (md ++ '\n' :: b) = true := by
  unfold hasHeading at h ⊢
  rw [linesOf_append_newline]
  exact anyLineWithLast_append_left headingLine headingLine_isLast_mono _ _ h
    (linesOf_ne_nil b)

theorem hasListMarker_append_line (md b : List Char) (h : hasListMarker md = true) :
    hasListMarker (md ++ '\n' :: b) = true := by
  unfold hasListMarker at h ⊢
  rw [linesOf_append_newline]
  exact anyLineWithLast_append_left listLine listLine_isLast_mono _ _ h
    (linesOf_ne_nil b)

theorem hasTableRow_append_line (md b : List Char) (h : hasTableRow md = true) :
    hasTableRow (md ++ '\n' :: b) = true := by
  unfold hasTableRow at h ⊢
  rw [linesOf_append_newline, List.any_append]
  simp [h]

theorem afterDD_append : ∀ (a x r : List Char), afterDD a = some r →
    afterDD (a ++ x) = some (r ++ x) := by
  intro a
  induction a with
  | nil => intro x r h; simp [afterDD] at h
  | cons c rest ih =>
    intro x r h
    cases rest with
    | nil => simp [afterDD] at h
    | cons b rest2 =>
      by_cases hdd : (c = '$' && b = '$') = true
      · simp only [afterDD, hdd, if_true, Option.some.injEq] at h
        subst h
        simp only [List.cons_append, afterDD, hdd, if_true]
        simp [List.append_eq]
      · simp only [Bool.not_eq_true] at hdd
        simp only [afterDD, hdd, Bool.false_eq_true, if_false] at h
        have h2 := ih x r h
        rw [List.cons_append] at h2
        simp only [List.cons_append, afterDD, hdd, Bool.false_eq_true, if_false]
        exact h2

theorem hasMathBlock_append (md x : List Char) (h : hasMathBlock md = true) :
    hasMathBlock (md ++ x) = true := by
  unfold hasMathBlock at h ⊢
  cases h1 : afterDD md with
  | none => rw [h1] at h; simp at h
  | some r =>
    rw [h1] at h
    simp only [Option.some_bind] at h
    cases h2 : afterDD r with
    | none => rw [h2] at h; simp at h
    | some r2 =>
      rw [afterDD_append md x r h1]
      simp only [Option.some_bind]
      rw [afterDD_append r x r2 h2]
      simp

theorem hasDoubleNewline_append (x : List Char) : ∀ (md : List Char),
    hasDoubleNewline md = true → hasDoubleNewline (md ++ x) = true := by
  intro md
  induction md with
  | nil => intro h; simp [hasDoubleNewline] at h
  | cons c rest ih =>
    intro h
    cases rest with
    | nil => simp [hasDoubleNewline] at h
    | cons b rest2 =>
      simp only [hasDoubleNewline, Bool.or_eq_true] at h
      simp only [List.cons_append, hasDoubleNewline, Bool.or_eq_true]
      rcases h with h | h
      · exact Or.inl h
      · have h2 := ih h
        rw [List.cons_append] at h2
        exact Or.inr h2

theorem countClass_append (cs a x : List Char) :
    countClass cs a ≤ countClass cs (a ++ x) := by
  unfold countClass
  rw [List.countP_append]
  exact Nat.le_add_right _ _

theorem countLatexCommands_append (x : List Char) : ∀ (a : List Char),
    countLatexCommands a ≤ countLatexCommands (a ++ x) := by
  intro a
  induction a with
  | nil => simp [countLatexCommands]
  | cons c rest ih =>
    cases rest with
    | nil =>
      have h0 : countLatexCommands [c] = 0 := rfl
      rw [h0]
      exact Nat.zero_le _
    | cons b rest2 =>
      have h2 := ih
      rw [List.cons_append] at h2
      simp only [List.cons_append, countLatexCommands]
      exact Nat.add_le_add_left h2 _

theorem patternRatioScore_mono (srcN : ℕ) {m1 m2 : ℕ} (h : m1 ≤ m2) :
    patternRatioScore srcN m1 ≤ patternRatioScore srcN m2 := by
  unfold patternRatioScore
  split_ifs with hs
  · have hc : (0 : ℚ) < (srcN : ℚ) := by exact_mod_cast hs
    have hd : (m1 : ℚ) / (srcN : ℚ) ≤ (m2 : ℚ) / (srcN : ℚ) :=
      (div_le_div_iff_of_pos_right hc).mpr (by exact_mod_cast h)
    exact mul_le_mul_of_nonneg_right (min_le_min (le_refl 1) hd) (by norm_num)
  · exact le_refl 0

theorem lengthScore_append (src md x : List Char) :
    lengthScore src md ≤ lengthScore src (md ++ x) := by
  unfold lengthScore
  have hc : (0 : ℚ) < ((max src.length 1 : ℕ) : ℚ) := by
    exact_mod_cast Nat.lt_of_lt_of_le Nat.zero_lt_one (le_max_right src.length 1)
  have hlen : ((md.length : ℕ) : ℚ) ≤ (((md ++ x).length : ℕ) : ℚ) := by
    have : md.length ≤ (md ++ x).length := by
      rw [List.length_append]; exact Nat.le_add_right _ _
    exact_mod_cast this
  exact mul_le_mul_of_nonneg_right
    (min_le_min (le_refl 1) ((div_le_div_iff_of_pos_right hc).mpr hlen)) (by norm_num)

theorem indicatorScore_mono (p q : Bool) (w : ℚ) (hw : 0 ≤ w)
    (himp : p = true → q = true) :
    (if p then w else 0) ≤ (if q then w else 0) := by
  cases p <;> cases q <;> simp_all

theorem elementsScore_append_line (md b : List Char) :
    elementsScore md ≤ elementsScore (md ++ '\n' :: b) := by
  unfold elementsScore
  have e1 := indicatorScore_mono _ _ 10 (by norm_num) (hasHeading_append_line md b)
  have e2 := indicatorScore_mono _ _ 15 (by norm_num) (hasMathBlock_append md ('\n' :: b))
  have e3 := indicatorScore_mono _ _ 8 (by norm_num) (hasTableRow_append_line md b)
  have e4 := indicatorScore_mono _ _ 7 (by norm_num) (hasListMarker_append_line md b)
  exact add_le_add (add_le_add (add_le_add e1 e2) e3) e4

theorem mathDetectionScore_append (src md x : List Char) :
    mathDetectionScore src md ≤ mathDetectionScore src (md ++ x) := by
  unfold mathDetectionScore
  have p1 := patternRatioScore_mono (countClass mathGlyphs src)
    (countClass_append mathGlyphs md x)
  have p2 := patternRatioScore_mono (countClass supSubMarks src)
    (countClass_append supSubMarks md x)
  have p3 := patternRatioScore_mono (countLatexCommands src)
    (countLatexCommands_append x md)
  have p4 := patternRatioScore_mono (countClass relationalOps src)
    (countClass_append relationalOps md x)
  exact add_le_add (add_le_add (add_le_add p1 p2) p3) p4

theorem structureScore_append (md x : List Char) :
    structureScore md ≤ structureScore (md ++ x) := by
  unfold structureScore
  exact indicatorScore_mono _ _ 10 (by norm_num) (hasDoubleNewline_append x md)

/-- Appending a further line never decreases the completeness score. -/
theorem completeness_append_line_mono (src md b : List Char) :
    calculateMarkdownCompleteness src md ≤
      calculateMarkdownCompleteness src (md ++ '\n' :: b) := by
  unfold calculateMarkdownCompleteness
  apply min_le_min (le_refl (100 : ℤ))
  apply Int.floor_le_floor
  have h1 := lengthScore_append src md ('\n' :: b)
  have h2 := elementsScore_append_line md b
  have h3 := mathDetectionScore_append src md ('\n' :: b)
  have h4 := structureScore_append md ('\n' :: b)
  exact add_le_add (add_le_add (add_le_add (add_le_add h1 h2) h3) h4) (le_refl (1 / 2))

/-! ## The claims -/

/-- C1 counterexample: with `ttl = 0` the fresh entry's `expiresAt` equals
the write instant, so `get` immediately after `set` at the same instant
returns absent instead of the stored value (`get` treats
`now >= expiresAt` as expired).  The claim quantifies over every ttl, so it
fails at `t = 0`. -/
theorem c1_zero_ttl_counterexample :
    (MemoryCache.get
        (MemoryCache.set ⟨100, 300000, 60000⟩ ([] : CMap ℕ) "k" 7 (some 0) 5) "k" 5).1
      ≠ some 7 := by decide

/-- C1 (amended: for every ttl `t > 0`): immediately after
`set(k, v, t)`, `get(k)` returns `v` and leaves the entry with
`accessCount` incremented to 1 and `lastAccessed` set to the access
instant; and for every key whose entry's `expiresAt` has passed at the time
of the call, `get(k)` returns absent and removes the entry from the
store. -/
theorem c1_get_after_set_amended {α : Type _} :
    (∀ (cfg : CacheConfig) (m : CMap α) (k : String) (v : α) (t now : ℕ), 0 < t →
      (MemoryCache.get (MemoryCache.set cfg m k v (some t) now) k now).1 = some v ∧
        alGet (MemoryCache.get (MemoryCache.set cfg m k v (some t) now) k now).2 k =
          some ⟨v, now, now + t, 1, now⟩) ∧
    (∀ (m : CMap α) (k : String) (now : ℕ) (e : CacheEntry α),
      alGet m k = some e → e.expiresAt < now →
      (MemoryCache.get m k now).1 = none ∧
        alGet (MemoryCache.get m k now).2 k = none) := by
  constructor
  · intro cfg m k v t now ht
    have hset : alGet (MemoryCache.set cfg m k v (some t) now) k =
        some ⟨v, now, now + t, 0, now⟩ := by
      unfold MemoryCache.set
      exact alGet_alSet_self _ _ _
    have hexp : ¬(now + t ≤ now) := by omega
    unfold MemoryCache.get
    rw [hset]
    simp only [hexp, if_false]
    exact ⟨trivial, alGet_alSet_self _ _ _⟩
  · intro m k now e hget hlt
    have hexp : e.expiresAt ≤ now := le_of_lt hlt
    unfold MemoryCache.get
    rw [hget]
    simp only [hexp, if_true]
    exact ⟨trivial, alGet_alDelete_self _ _⟩

/-- C1 witness: both parts of the amended claim evaluated at concrete
inputs. -/
theorem c1_get_after_set_amended_witness :
    ((MemoryCache.get
        (MemoryCache.set ⟨3, 300000, 60000⟩ ([] : CMap ℕ) "a" 42 (some 10) 50) "a" 50).1 =
          some 42 ∧
      alGet (MemoryCache.get
        (MemoryCache.set ⟨3, 300000, 60000⟩ ([] : CMap ℕ) "a" 42 (some 10) 50) "a" 50).2 "a" =
          some ⟨42, 50, 60, 1, 50⟩) ∧
    ((MemoryCache.get [("b", (⟨5, 0, 4, 0, 0⟩ : CacheEntry ℕ))] "b" 9).1 = none ∧
      alGet (MemoryCache.get [("b", (⟨5, 0, 4, 0, 0⟩ : CacheEntry ℕ))] "b" 9).2 "b" = none) :=
  ⟨c1_get_after_set_amended.1 ⟨3, 300000, 60000⟩ [] "a" 42 10 50 (by norm_num),
   c1_get_after_set_amended.2 [("b", ⟨5, 0, 4, 0, 0⟩)] "b" 9 ⟨5, 0, 4, 0, 0⟩
     (by decide) (by norm_num)⟩

/-- C2 (code bug): a capacity-1 cache holding only the key `""` does not
evict it on the next `set` — the JavaScript guard `if (lruKey)` treats the
empty-string key as falsy — so the oldest entry survives and the store
grows to 2 entries, contradicting both the claim and `evictLRU`'s own
documentation. -/
theorem c2_empty_key_eviction_failure :
    alGet (MemoryCache.set ⟨1, 300000, 60000⟩
        (MemoryCache.set ⟨1, 300000, 60000⟩ ([] : CMap ℕ) "" 10 none 0) "x" 20 none 1) ""
        = some ⟨10, 0, 300000, 0, 0⟩ ∧
      (MemoryCache.set ⟨1, 300000, 60000⟩
        (MemoryCache.set ⟨1, 300000, 60000⟩ ([] : CMap ℕ) "" 10 none 0) "x" 20 none 1).length
        = 2 := by decide

/-- C10 counterexample: with `maxSize = 1`, setting the key `""` and then a
second key leaves 2 entries in the store — the falsy-key guard in
`evictLRU` skips the eviction, so the claimed capacity bound fails. -/
theorem c10_capacity_exceeded_counterexample :
    1 < (runCacheOps ⟨1, 300000, 60000⟩ ([] : CMap ℕ)
        [CacheOp.setOp "" 10 none 0, CacheOp.setOp "x" 20 none 1]).length := by decide

/-- C10 (amended: provided no `set` uses the empty string as its key): for
every `MemoryCache` with `maxSize ≥ 1`, every finite sequence of `set`,
`get`, `has`, `delete` and `clear` operations starting from the empty cache
keeps the number of stored entries at most `maxSize`. -/
theorem c10_capacity_invariant_amended {α : Type _} (cfg : CacheConfig)
    (ops : List (CacheOp α)) (h1 : 1 ≤ cfg.maxSize)
    (hops : ∀ op ∈ ops, noEmptySetKey op) :
    (runCacheOps cfg [] ops).length ≤ cfg.maxSize :=
  (capInv_runCacheOps cfg ops []
    ⟨Nat.zero_le _, fun kv hkv => absurd hkv (List.not_mem_nil kv)⟩ h1 hops).1

/-- C10 witness: three inserts and a read on a capacity-2 cache stay within
capacity. -/
theorem c10_capacity_invariant_amended_witness :
    (runCacheOps ⟨2, 300000, 60000⟩ ([] : CMap ℕ)
        [CacheOp.setOp "a" 1 none 0, CacheOp.setOp "b" 2 none 1,
         CacheOp.setOp "c" 3 none 2, CacheOp.getOp "a" 3]).length ≤ 2 :=
  c10_capacity_invariant_amended ⟨2, 300000, 60000⟩ _ (by norm_num)
    (by intro op hop; fin_cases hop <;> simp [noEmptySetKey])

/-! ### Rate limiter step characterizations -/

/-- `check` on an identifier with no usable window state: start a fresh
window of `windowMs` with count 1. -/
theorem check_fresh (cfg : RateLimitConfigM) (s : RLStore) (key : String) (now : ℕ)
    (b : Bool) (h : alGet s key = none) :
    RateLimiter.check cfg s key now b =
      (⟨true, cfg.maxRequests, (cfg.maxRequests : ℤ) - 1, now + cfg.windowMs, none⟩,
       alSet (if b then cleanupExpiredEntries now s else s) key ⟨1, now + cfg.windowMs⟩) := by
  have hget : alGet (if b then cleanupExpiredEntries now s else s) key = none := by
    cases b
    · simpa using h
    · simpa using alGet_cleanup_none s key now h
  simp only [RateLimiter.check, hget]

/-- `check` within a live window and under the limit: increment the
count. -/
theorem check_counting (cfg : RateLimitConfigM) (s : RLStore) (key : String) (now : ℕ)
    (b : Bool) (e : RateLimitEntry) (h : alGet s key = some e)
    (hlive : now < e.resetTime) (hcnt : e.count < cfg.maxRequests) :
    RateLimiter.check cfg s key now b =
      (⟨true, cfg.maxRequests, (cfg.maxRequests : ℤ) - (e.count + 1), e.resetTime, none⟩,
       alSet (if b then cleanupExpiredEntries now s else s) key ⟨e.count + 1, e.resetTime⟩) := by
  have hget : alGet (if b then cleanupExpiredEntries now s else s) key = some e := by
    cases b
    · simpa using h
    · simpa using alGet_cleanup_live s key now e h hlive
  have h1 : ¬(e.resetTime ≤ now) := not_le.mpr hlive
  have h2 : ¬(cfg.maxRequests ≤ e.count) := not_le.mpr hcnt
  simp only [RateLimiter.check, hget, h1, h2, if_false]

/-- `check` within a live window at or over the limit: reject with the
ceiling-rounded seconds until the window resets. -/
theorem check_blocked (cfg : RateLimitConfigM) (s : RLStore) (key : String) (now : ℕ)
    (b : Bool) (e : RateLimitEntry) (h : alGet s key = some e)
    (hlive : now < e.resetTime) (hcnt : cfg.maxRequests ≤ e.count) :
    RateLimiter.check cfg s key now b =
      (⟨false, cfg.maxRequests, 0, e.resetTime, some ((e.resetTime - now + 999) / 1000)⟩,
       if b then cleanupExpiredEntries now s else s) := by
  have hget : alGet (if b then cleanupExpiredEntries now s else s) key = some e := by
    cases b
    · simpa using h
    · simpa using alGet_cleanup_live s key now e h hlive
  have h1 : ¬(e.resetTime ≤ now) := not_le.mpr hlive
  simp only [RateLimiter.check, hget, h1, hcnt, if_false, if_true]

/-- C3: with `maxRequests = 3`, `windowMs = 60000` and an identifier with
no prior state, three `check` calls within the window succeed with
`remaining` 2, 1, 0, and the fourth is rejected with `retryAfterSeconds`
equal to the time left until `resetAt` rounded up to a whole second, which
is strictly positive.  The per-call probabilistic cleanup decisions are
arbitrary. -/
theorem c3_rate_limiter_sequence (s0 : RLStore) (key : String)
    (n1 n2 n3 n4 : ℕ) (b1 b2 b3 b4 : Bool)
    (h0 : alGet s0 key = none)
    (_h12 : n1 ≤ n2) (h23 : n2 ≤ n3) (h34 : n3 ≤ n4) (h4w : n4 < n1 + 60000) :
    (checkRun ⟨60000, 3⟩ s0 key [(n1, b1), (n2, b2), (n3, b3), (n4, b4)]).1.map
        (fun r => (r.success, r.remaining, r.retryAfter)) =
      [(true, 2, none), (true, 1, none), (true, 0, none),
       (false, 0, some ((n1 + 60000 - n4 + 999) / 1000))] ∧
    0 < (n1 + 60000 - n4 + 999) / 1000 := by
  have e1 := check_fresh ⟨60000, 3⟩ s0 key n1 b1 h0
  set s1 := alSet (if b1 then cleanupExpiredEntries n1 s0 else s0) key ⟨1, n1 + 60000⟩
    with hs1
  have g1 : alGet s1 key = some ⟨1, n1 + 60000⟩ := alGet_alSet_self _ _ _
  have e2 := check_counting ⟨60000, 3⟩ s1 key n2 b2 ⟨1, n1 + 60000⟩ g1
    (by simp only []; omega) (by norm_num)
  set s2 := alSet (if b2 then cleanupExpiredEntries n2 s1 else s1) key ⟨2, n1 + 60000⟩
    with hs2
  have g2 : alGet s2 key = some ⟨2, n1 + 60000⟩ := alGet_alSet_self _ _ _
  have e3 := check_counting ⟨60000, 3⟩ s2 key n3 b3 ⟨2, n1 + 60000⟩ g2
    (by simp only []; omega) (by norm_num)
  set s3 := alSet (if b3 then cleanupExpiredEntries n3 s2 else s2) key ⟨3, n1 + 60000⟩
    with hs3
  have g3 : alGet s3 key = some ⟨3, n1 + 60000⟩ := alGet_alSet_self _ _ _
  have e4 := check_blocked ⟨60000, 3⟩ s3 key n4 b4 ⟨3, n1 + 60000⟩ g3
    (by simp only []; omega) (by norm_num)
  constructor
  · simp only [checkRun, e1, e2, e3, e4, List.map]
    norm_num
  · have hpos : 1000 ≤ n1 + 60000 - n4 + 999 := by omega
    omega

/-- C3 witness: the concrete run at times 0, 1, 2, 3 from the empty
store. -/
theorem c3_rate_limiter_sequence_witness :
    (checkRun ⟨60000, 3⟩ ([] : RLStore) "ip:1.2.3.4"
        [(0, false), (1, false), (2, true), (3, false)]).1.map
        (fun r => (r.success, r.remaining, r.retryAfter)) =
      [(true, 2, none), (true, 1, none), (true, 0, none),
       (false, 0, some ((0 + 60000 - 3 + 999) / 1000))] ∧
    0 < (0 + 60000 - 3 + 999) / 1000 :=
  c3_rate_limiter_sequence [] "ip:1.2.3.4" 0 1 2 3 false false true false rfl
    (by norm_num) (by norm_num) (by norm_num) (by norm_num)

/-- C9: the rate-limit store is shared process-wide and keyed only by the
identifier: a `check` through a limiter with config `c1` writes the entry
that a `check` through a differently configured limiter `c2` then reads and
updates — the second call sees count 1, reports `c2.maxRequests - 2`
remaining, and reports `c1`'s window end as its own `resetTime`. -/
theorem c9_shared_store_cross_instance (c1 c2 : RateLimitConfigM) (s0 : RLStore)
    (key : String) (now : ℕ) (b1 b2 : Bool)
    (h0 : alGet s0 key = none) (hw : 0 < c1.windowMs) (hm2 : 2 ≤ c2.maxRequests) :
    (RateLimiter.check c1 s0 key now b1).1.remaining = (c1.maxRequests : ℤ) - 1 ∧
    (RateLimiter.check c2 (RateLimiter.check c1 s0 key now b1).2 key now b2).1.success
      = true ∧
    (RateLimiter.check c2 (RateLimiter.check c1 s0 key now b1).2 key now b2).1.remaining
      = (c2.maxRequests : ℤ) - 2 ∧
    (RateLimiter.check c2 (RateLimiter.check c1 s0 key now b1).2 key now b2).1.resetTime
      = now + c1.windowMs ∧
    alGet (RateLimiter.check c2 (RateLimiter.check c1 s0 key now b1).2 key now b2).2 key
      = some ⟨2, now + c1.windowMs⟩ := by
  have e1 := check_fresh c1 s0 key now b1 h0
  rw [e1]
  have g1 : alGet (alSet (if b1 then cleanupExpiredEntries now s0 else s0) key
      ⟨1, now + c1.windowMs⟩) key = some ⟨1, now + c1.windowMs⟩ := alGet_alSet_self _ _ _
  have e2 := check_counting c2 _ key now b2 ⟨1, now + c1.windowMs⟩ g1
    (by simp only []; omega) (by simp only []; omega)
  rw [e2]
  refine ⟨rfl, rfl, by norm_num, rfl, alGet_alSet_self _ _ _⟩

/-- C9 witness: a 1-request-per-minute limiter consumes the budget that a
5-request limiter then reports reduced by the shared count. -/
theorem c9_shared_store_cross_instance_witness :
    (RateLimiter.check ⟨60000, 1⟩ ([] : RLStore) "ip:9" 7 false).1.remaining
      = ((1 : ℕ) : ℤ) - 1 ∧
    (RateLimiter.check ⟨1000, 5⟩
      (RateLimiter.check ⟨60000, 1⟩ ([] : RLStore) "ip:9" 7 false).2 "ip:9" 7 true).1.success
      = true ∧
    (RateLimiter.check ⟨1000, 5⟩
      (RateLimiter.check ⟨60000, 1⟩ ([] : RLStore) "ip:9" 7 false).2 "ip:9" 7 true).1.remaining
      = ((5 : ℕ) : ℤ) - 2 ∧
    (RateLimiter.check ⟨1000, 5⟩
      (RateLimiter.check ⟨60000, 1⟩ ([] : RLStore) "ip:9" 7 false).2 "ip:9" 7 true).1.resetTime
      = 7 + 60000 ∧
    alGet (RateLimiter.check ⟨1000, 5⟩
      (RateLimiter.check ⟨60000, 1⟩ ([] : RLStore) "ip:9" 7 false).2 "ip:9" 7 true).2 "ip:9"
      = some ⟨2, 7 + 60000⟩ :=
  c9_shared_store_cross_instance ⟨60000, 1⟩ ⟨1000, 5⟩ [] "ip:9" 7 false true rfl
    (by norm_num) (by norm_num)

/-- C4 counterexample: when the entry under the key is already expired,
`getOrCompute` with a failing compute function does change the cache state
for the key — the initial `get` deletes the expired entry before the
compute function throws — so "the cache state for k is unchanged on error"
fails. -/
theorem c4_expired_entry_removed_on_error_counterexample :
    alGet (MemoryCache.getOrCompute ⟨100, 300000, 60000⟩
        (MemoryCache.set ⟨100, 300000, 60000⟩ ([] : CMap ℕ)
          (generateKey "doc".data) 7 (some 5) 0)
        "doc".data (Except.error "boom") none 10).2.1 (generateKey "doc".data)
      ≠ alGet (MemoryCache.set ⟨100, 300000, 60000⟩ ([] : CMap ℕ)
          (generateKey "doc".data) 7 (some 5) 0) (generateKey "doc".data) := by decide

/-- C4 (amended): `getOrCompute` returns the cached value without invoking
the compute function when an unexpired entry is present; otherwise it
invokes it exactly once, stores the result and returns it; and if the
compute function throws, the error propagates, no entry is written for the
key, other keys are untouched, and the cache state for the key is unchanged
except that an already-expired entry for it is removed by the initial
`get`. -/
theorem c4_getOrCompute_amended {α ε : Type _} :
    (∀ (cfg : CacheConfig) (m : CMap α) (kd : List Char) (f : Except ε α)
        (ttl : Option ℕ) (now : ℕ) (e : CacheEntry α),
      alGet m (generateKey kd) = some e → now < e.expiresAt →
      MemoryCache.getOrCompute cfg m kd f ttl now =
        (Except.ok e.data,
         alSet m (generateKey kd)
           { e with accessCount := e.accessCount + 1, lastAccessed := now }, 0)) ∧
    (∀ (cfg : CacheConfig) (m : CMap α) (kd : List Char) (r : α)
        (ttl : Option ℕ) (now : ℕ),
      (MemoryCache.get m (generateKey kd) now).1 = none →
      MemoryCache.getOrCompute cfg m kd (Except.ok r : Except ε α) ttl now =
        (Except.ok r,
         MemoryCache.set cfg (MemoryCache.get m (generateKey kd) now).2
           (generateKey kd) r ttl now, 1) ∧
      alGet (MemoryCache.getOrCompute cfg m kd (Except.ok r : Except ε α) ttl now).2.1
          (generateKey kd) = some ⟨r, now, now + ttl.getD cfg.ttl, 0, now⟩) ∧
    (∀ (cfg : CacheConfig) (m : CMap α) (kd : List Char) (err : ε)
        (ttl : Option ℕ) (now : ℕ),
      (MemoryCache.get m (generateKey kd) now).1 = none →
      MemoryCache.getOrCompute cfg m kd (Except.error err) ttl now =
        (Except.error err, (MemoryCache.get m (generateKey kd) now).2, 1) ∧
      alGet (MemoryCache.getOrCompute cfg m kd (Except.error err) ttl now).2.1
          (generateKey kd) = none ∧
      (∀ k', k' ≠ generateKey kd →
        alGet (MemoryCache.getOrCompute cfg m kd (Except.error err) ttl now).2.1 k'
          = alGet m k')) := by
  refine ⟨?_, ?_, ?_⟩
  · intro cfg m kd f ttl now e hget hlive
    have hres : MemoryCache.get m (generateKey kd) now =
        (some e.data,
         alSet m (generateKey kd)
           { e with accessCount := e.accessCount + 1, lastAccessed := now }) := by
      unfold MemoryCache.get
      rw [hget]
      simp only [not_le.mpr hlive, if_false]
    simp only [MemoryCache.getOrCompute, hres]
  · intro cfg m kd r ttl now hmiss
    cases hres : MemoryCache.get m (generateKey kd) now with
    | mk a m1 =>
      rw [hres] at hmiss
      simp only at hmiss
      subst hmiss
      constructor
      · simp only [MemoryCache.getOrCompute, hres]
      · simp only [MemoryCache.getOrCompute, hres]
        unfold MemoryCache.set
        exact alGet_alSet_self _ _ _
  · intro cfg m kd err ttl now hmiss
    have hstate := get_miss_state m (generateKey kd) now hmiss
    cases hres : MemoryCache.get m (generateKey kd) now with
    | mk a m1 =>
      rw [hres] at hmiss hstate
      simp only at hmiss hstate
      subst hmiss
      refine ⟨?_, ?_, ?_⟩
      · simp only [MemoryCache.getOrCompute, hres]
      · simp only [MemoryCache.getOrCompute, hres]
        exact hstate
      · intro k' hk'
        have hframe := get_frame m (generateKey kd) k' now hk'
        rw [hres] at hframe
        simp only at hframe
        simp only [MemoryCache.getOrCompute, hres]
        exact hframe

/-- C4 witness: the three behaviours of the amended claim at concrete
inputs — a live hit with a would-fail compute function, a fresh compute,
and a failing compute over an expired entry. -/
theorem c4_getOrCompute_amended_witness :
    (MemoryCache.getOrCompute ⟨100, 300000, 60000⟩
        [((generateKey "k1".data), (⟨7, 0, 100, 2, 0⟩ : CacheEntry ℕ))]
        "k1".data (Except.error "boom") none 10 =
      (Except.ok 7,
       alSet [((generateKey "k1".data), (⟨7, 0, 100, 2, 0⟩ : CacheEntry ℕ))]
         (generateKey "k1".data) ⟨7, 0, 100, 3, 10⟩, 0)) ∧
    ((MemoryCache.getOrCompute ⟨100, 300000, 60000⟩ ([] : CMap ℕ)
        "k2".data (Except.ok 5 : Except String ℕ) none 3).1 = Except.ok 5 ∧
      alGet (MemoryCache.getOrCompute ⟨100, 300000, 60000⟩ ([] : CMap ℕ)
        "k2".data (Except.ok 5 : Except String ℕ) none 3).2.1 (generateKey "k2".data) =
          some ⟨5, 3, 3 + 300000, 0, 3⟩) ∧
    (MemoryCache.getOrCompute ⟨100, 300000, 60000⟩
        [((generateKey "k3".data), (⟨9, 0, 5, 0, 0⟩ : CacheEntry ℕ))]
        "k3".data (Except.error "boom") none 10).1 = Except.error "boom" := by
  refine ⟨?_, ⟨?_, ?_⟩, ?_⟩
  · exact (c4_getOrCompute_amended (α := ℕ) (ε := String)).1 ⟨100, 300000, 60000⟩
      [((generateKey "k1".data), (⟨7, 0, 100, 2, 0⟩ : CacheEntry ℕ))]
      "k1".data (Except.error "boom") none 10 ⟨7, 0, 100, 2, 0⟩ (by decide) (by decide)
  · have h2 := ((c4_getOrCompute_amended (α := ℕ) (ε := String)).2.1 ⟨100, 300000, 60000⟩
      [] "k2".data 5 none 3 (by decide)).1
    rw [h2]
  · exact ((c4_getOrCompute_amended (α := ℕ) (ε := String)).2.1 ⟨100, 300000, 60000⟩
      [] "k2".data 5 none 3 (by decide)).2
  · have h3 := ((c4_getOrCompute_amended (α := ℕ) (ε := String)).2.2 ⟨100, 300000, 60000⟩
      [((generateKey "k3".data), (⟨9, 0, 5, 0, 0⟩ : CacheEntry ℕ))]
      "k3".data "boom" none 10 (by decide)).1
    rw [h3]

/-- C5: a file strictly larger than `maxFileSize` makes
`processFileWithMemoryControl` reject with the "file too large" error
before the buffer is even created, and the processor is never invoked. -/
theorem c5_size_precheck {ε T : Type _} (file : JsFile) (processor : ℕ → Except ε T)
    (maxFileSize : ℕ) (enableGC gcAvail loadOk memPressure : Bool) (now : ℕ)
    (h : maxFileSize < file.size) :
    (processFileWithMemoryControl file processor maxFileSize enableGC gcAvail loadOk
        memPressure now).1 =
      Except.error (ProcError.fileTooLarge (roundDivMB file.size) (roundDivMB maxFileSize)) ∧
    (processFileWithMemoryControl file processor maxFileSize enableGC gcAvail loadOk
        memPressure now).2.2.processorCalls = 0 := by
  unfold processFileWithMemoryControl
  rw [if_pos h]
  exact ⟨rfl, rfl⟩

/-- C5 witness: a 100-byte file against a 50-byte limit. -/
theorem c5_size_precheck_witness :
    (processFileWithMemoryControl ⟨100⟩ (fun n => (Except.ok n : Except Unit ℕ)) 50
        true true true false 0).1 =
      Except.error (ProcError.fileTooLarge (roundDivMB 100) (roundDivMB 50)) ∧
    (processFileWithMemoryControl ⟨100⟩ (fun n => (Except.ok n : Except Unit ℕ)) 50
        true true true false 0).2.2.processorCalls = 0 :=
  c5_size_precheck ⟨100⟩ _ 50 true true true false 0 (by norm_num)

/-- C6: for every file passing the size precheck and every outcome — load
failure, processor failure, or success — the final buffer state is cleared
(`buffer = null`) and, whenever the runtime exposes a collector, at least
one reclamation hint was issued; no exit path skips the release. -/
theorem c6_buffer_release_all_paths {ε T : Type _} (file : JsFile)
    (processor : ℕ → Except ε T) (maxFileSize : ℕ)
    (enableGC gcAvail loadOk memPressure : Bool) (now : ℕ)
    (h : file.size ≤ maxFileSize) :
    (processFileWithMemoryControl file processor maxFileSize enableGC gcAvail loadOk
        memPressure now).2.1 = some ⟨none, 0, now, maxFileSize⟩ ∧
    (gcAvail = true → 1 ≤ (processFileWithMemoryControl file processor maxFileSize
        enableGC gcAvail loadOk memPressure now).2.2.gcHints) := by
  have hns : ¬(maxFileSize < file.size) := not_lt.mpr h
  cases hl : loadOk with
  | false =>
    constructor
    · simp [processFileWithMemoryControl, FileBuffer.load, FileBuffer.clear, hns]
    · intro hg
      simp [processFileWithMemoryControl, FileBuffer.load, FileBuffer.clear, hns, hg]
      split_ifs <;> omega
  | true =>
    cases hp : processor file.size with
    | ok t =>
      constructor
      · simp [processFileWithMemoryControl, FileBuffer.load, FileBuffer.clear, hns, hp]
      · intro hg
        simp [processFileWithMemoryControl, FileBuffer.load, FileBuffer.clear, hns, hp, hg]
        split_ifs <;> omega
    | error e =>
      constructor
      · simp [processFileWithMemoryControl, FileBuffer.load, FileBuffer.clear, hns, hp]
      · intro hg
        simp [processFileWithMemoryControl, FileBuffer.load, FileBuffer.clear, hns, hp, hg]
        split_ifs <;> omega

/-- C6 witness: a failing processor on an in-limit file with an available
collector still ends with a cleared buffer and a reclamation hint. -/
theorem c6_buffer_release_all_paths_witness :
    (processFileWithMemoryControl ⟨10⟩ (fun _ => (Except.error () : Except Unit ℕ)) 50
        false true true false 4).2.1 = some ⟨none, 0, 4, 50⟩ ∧
    (true = true → 1 ≤ (processFileWithMemoryControl ⟨10⟩
        (fun _ => (Except.error () : Except Unit ℕ)) 50 false true true false 4).2.2.gcHints) :=
  c6_buffer_release_all_paths ⟨10⟩ _ 50 false true true false 4 (by norm_num)

/-- C8 counterexample: the single NUL code unit is a non-empty input whose
rolling hash is 0, so its digest collides with the zero-length input's
digest — distinctness fails as universally stated. -/
theorem c8_nul_byte_collision :
    digestHex [0] = digestHex [] ∧ ([0] : List ℕ) ≠ [] := by
  constructor
  · decide
  · decide

/-- C8 (amended): hashing the zero-length input completes and yields the
valid digest "0000000000000000", and every input whose 32-bit rolling hash
value is nonzero (in particular, distinctness fails only on the nonempty
inputs hashing to zero, such as a single NUL) digests differently from the
empty input. -/
theorem c8_empty_hash_amended :
    digestHex [] = "0000000000000000" ∧
    ∀ codes : List ℕ, hashVal codes ≠ 0 → digestHex codes ≠ digestHex [] := by
  constructor
  · decide
  · exact digestHex_ne_of_hashVal_ne_zero

/-- C8 witness: the input "A" (code 65) has nonzero hash and a digest
different from the empty input's. -/
theorem c8_empty_hash_amended_witness :
    hashVal [65] ≠ 0 ∧ digestHex [65] ≠ digestHex [] :=
  ⟨by decide, c8_empty_hash_amended.2 [65] (by decide)⟩

/-- C7: for every source sample and markdown, extending the markdown with
one additional valid heading line never decreases the completeness
score. -/
theorem c7_completeness_monotone_heading (src md h : List Char)
    (_hvalid : validHeadingLine h) :
    calculateMarkdownCompleteness src md ≤
      calculateMarkdownCompleteness src (md ++ '\n' :: h) :=
  completeness_append_line_mono src md h

/-- C7 witness: the concrete extension of "hello" with the heading line
"# T". -/
theorem c7_completeness_monotone_heading_witness :
    validHeadingLine ('#' :: ' ' :: ['T']) ∧
    calculateMarkdownCompleteness "x=1".data "hello".data ≤
      calculateMarkdownCompleteness "x=1".data
        ("hello".data ++ '\n' :: ('#' :: ' ' :: ['T'])) :=
  ⟨⟨⟨1, ['T'], le_refl 1, rfl⟩, by decide⟩,
   c7_completeness_monotone_heading _ _ _ ⟨⟨1, ['T'], le_refl 1, rfl⟩, by decide⟩⟩

end GOmd
